import Mathlib

/-!
# Verification of the gsoc-orgs entity-resolution core

Shallow embedding of the record-merging / alignment core of the gsoc-orgs
repository (`data-normalization-testing/`): the URL identity normalizer,
the difflib-based similarity engine, the union-find grouping, the field
mergers, the alias/exact/fuzzy alignment resolution and the year-set
comparison, together with theorems settling the frozen claims about them.

Python floats are modelled as exact rationals (`ℚ`), Python lists of years
as `List ℕ`, Python's `None`-able fields as `Option`, and Python strings as
`String` manipulated through explicit `List Char` helpers so that every
definition evaluates by kernel reduction.
-/

set_option maxRecDepth 8192

/-- Python `sub in s` for characters of a list: `pat` occurs as a prefix of `s`. -/
def leadsWith : List Char → List Char → Bool
  | [], _ => true
  | _ :: _, [] => false
  | a :: s, b :: t => a == b && leadsWith s t

/-- Python `sub in s`: `sub` occurs as a contiguous run inside `s`. -/
def occursIn (sub : List Char) : List Char → Bool
  | [] => leadsWith sub []
  | c :: rest => leadsWith sub (c :: rest) || occursIn sub rest

/-- Python substring containment test `sub in s` on strings. -/
def strContains (s sub : String) : Bool := occursIn sub.toList s.toList

/-- Python `s.startswith(p)`. -/
def strStarts (s p : String) : Bool := leadsWith p.toList s.toList

/-- Python `s.endswith(p)`. -/
def strTrails (s p : String) : Bool := leadsWith p.toList.reverse s.toList.reverse

/-- The six ASCII whitespace characters recognised by Python's `str.strip()`
and `str.split()` on the inputs handled here. -/
def pyIsSpace (c : Char) : Bool :=
  c == ' ' || c == '\t' || c == '\n' || c == '\x0d' || c == '\x0b' || c == '\x0c'

/-- Python `s.strip()`: remove leading and trailing whitespace. -/
def pyStrip (s : String) : String :=
  ⟨((s.toList.dropWhile pyIsSpace).reverse.dropWhile pyIsSpace).reverse⟩

/-- Python `s.lower()` (ASCII case folding, which covers every URL and name here). -/
def pyLower (s : String) : String := ⟨s.toList.map Char.toLower⟩

/-- Python `s.rstrip('/')`. -/
def pyRstripSlash (s : String) : String :=
  ⟨(s.toList.reverse.dropWhile (· == '/')).reverse⟩

/-- Python `s.strip('/')`. -/
def stripSlashBoth (l : List Char) : List Char :=
  ((l.dropWhile (· == '/')).reverse.dropWhile (· == '/')).reverse

/-- Python `s.split(sep)` for a single separator character: the list of chunks
between occurrences of `sep`; never empty, `[""]` on the empty string. -/
def splitOnChar (sep : Char) : List Char → List (List Char)
  | [] => [[]]
  | c :: rest =>
    let r := splitOnChar sep rest
    if c == sep then [] :: r
    else
      match r with
      | [] => [[c]]
      | h :: t => (c :: h) :: t

/-- Python `s.split()` (no argument): split on whitespace runs, dropping empties. -/
def pySplitWs (l : List Char) : List (List Char) :=
  (l.splitOnP pyIsSpace).filter (· ≠ [])

/-- Python `s.replace(pat, rep)` with a nonempty pattern `p0 :: ps`:
replace every non-overlapping occurrence, scanning left to right.  The fuel
argument (instantiated with the source length, which bounds the number of
steps) keeps the recursion structural so that it reduces in the kernel. -/
def pyReplaceAux (p0 : Char) (ps rep : List Char) : Nat → List Char → List Char
  | 0, l => l
  | _ + 1, [] => []
  | fuel + 1, c :: rest =>
    if leadsWith (p0 :: ps) (c :: rest) then
      rep ++ pyReplaceAux p0 ps rep fuel (rest.drop ps.length)
    else c :: pyReplaceAux p0 ps rep fuel rest

/-- Python `s.replace(pat, rep)` on strings (identity for the unused empty pattern). -/
def strReplace (s pat rep : String) : String :=
  match pat.toList with
  | [] => s
  | p :: ps => ⟨pyReplaceAux p ps rep.toList s.toList.length s.toList⟩

/-- Result of `urllib.parse.urlparse`: the components the normalizer reads. -/
structure ParsedUrl where
  scheme : String
  netloc : String
  path : String
deriving DecidableEq

/-- Characters allowed in a URL scheme (`scheme_chars` of `urllib.parse`). -/
def isSchemeChar (c : Char) : Bool :=
  c.isAlphanum || c == '+' || c == '-' || c == '.'

/-- Scheme splitting step of `urlsplit`: if the text before the first `:` is a
well-formed scheme (nonempty, leading ASCII letter, scheme characters only),
return it together with the remainder, else no scheme. -/
def splitSchemeL (l : List Char) : List Char × List Char :=
  let pre := l.takeWhile (· ≠ ':')
  if pre.length < l.length ∧ pre ≠ [] ∧ (pre.headD ' ').isAlpha ∧ pre.all isSchemeChar then
    (pre, l.drop (pre.length + 1))
  else ([], l)

/-- Schemes for which `urlparse` splits `;parameters` off the path (`uses_params`). -/
def usesParams : List String :=
  ["", "ftp", "hdl", "prospero", "http", "imap", "https", "shttp", "rtsp",
   "rtspu", "sip", "sips", "mms", "sftp", "tel"]

/-- The `_splitparams` step of `urlparse`: drop `;params` from the last path
segment (searching for `;` only at or after the last `/`). -/
def splitParamsL (p : List Char) : List Char :=
  if p.contains ';' then
    if p.contains '/' then
      let segs := splitOnChar '/' p
      let last := segs.getLastD []
      if last.contains ';' then
        List.intercalate ['/'] (segs.dropLast ++ [last.takeWhile (· ≠ ';')])
      else p
    else p.takeWhile (· ≠ ';')
  else p

/-- Characters terminating the netloc in `_splitnetloc` (`/`, `?`, `#`). -/
def notNetlocDelim (c : Char) : Bool := !(c == '/' || c == '?' || c == '#')

/-- Embedding of `urllib.parse.urlparse` for the scheme/netloc/path components
consumed by the normalizer: scheme split, `//`-netloc up to `/?#`, fragment and
query stripped from the path, `;params` stripped for `uses_params` schemes.
The IPv6-bracket validation of `urlsplit` (which only raises) is exposed
separately as `badBrackets`. -/
def pyUrlparse (url : String) : ParsedUrl :=
  let l := url.toList
  let sr := splitSchemeL l
  let sch := sr.1
  let rest := sr.2
  let nr : List Char × List Char :=
    if leadsWith ['/', '/'] rest then
      ((rest.drop 2).takeWhile notNetlocDelim, (rest.drop 2).dropWhile notNetlocDelim)
    else ([], rest)
  let path0 := (nr.2.takeWhile (· ≠ '#')).takeWhile (· ≠ '?')
  let path := if (⟨sch⟩ : String) ∈ usesParams then splitParamsL path0 else path0
  ⟨⟨sch⟩, ⟨nr.1⟩, ⟨path⟩⟩

/-- The netloc bracket check of `urlsplit`: an unmatched `[` or `]` makes
`urlsplit` raise `ValueError`, which `normalize_url` turns into `None`. -/
def badBrackets (netloc : String) : Bool :=
  (netloc.toList.contains '[' && !netloc.toList.contains ']') ||
  (netloc.toList.contains ']' && !netloc.toList.contains '[')

/-- Preprocessing line of `normalize_url`: `url.strip().lower().rstrip('/')`. -/
def normStr (url : String) : String := pyRstripSlash (pyLower (pyStrip url))

/-- The parse of a preprocessed URL: `urlparse(url if '://' in url else 'http://' + url)`. -/
def parsedOf (u : String) : ParsedUrl :=
  pyUrlparse (if strContains u "://" then u else "http://" ++ u)

/-- The `domain` computed by `normalize_url`:
`parsed.netloc or parsed.path.split('/')[0]`, then with every occurrence of
`www.`, `http://` and `https://` removed. -/
def cleanDomain (p : ParsedUrl) : String :=
  let d0 : String := if p.netloc ≠ "" then p.netloc else ⟨(splitOnChar '/' p.path.toList).headD []⟩
  strReplace (strReplace (strReplace d0 "www." "") "http://" "") "https://" ""

/-- First path segment used for github/twitter handles:
`parsed.path.strip('/').split('/')[0]`. -/
def firstSeg (p : ParsedUrl) : String :=
  ⟨(splitOnChar '/' (stripSlashBoth p.path.toList)).headD []⟩

/-- Domain a raw URL string normalizes to (after strip/lower/rstrip). -/
def urlDomain (url : String) : String := cleanDomain (parsedOf (normStr url))

/-- First path segment of a raw URL string (after strip/lower/rstrip). -/
def urlFirstSeg (url : String) : String := firstSeg (parsedOf (normStr url))

/-- Bracket failure of a raw URL string (after strip/lower/rstrip). -/
def urlBadBrackets (url : String) : Bool := badBrackets (parsedOf (normStr url)).netloc

namespace MergeByUrls

/-- Embedding of `normalize_url` from `merge_by_urls.py`: canonical identity
key of a URL — `github:<handle>` / `twitter:<handle>` for platform URLs with
a first path segment, else `web:<domain>`, else `None`. -/
def normalize_url (url : String) : Option String :=
  if url = "" then none
  else if normStr url = "" then none
  else if urlBadBrackets url then none
  else if strContains (urlDomain url) "github.com" ∧ urlFirstSeg url ≠ "" then
    some ("github:" ++ urlFirstSeg url)
  else if (strContains (urlDomain url) "twitter.com" ∨ strContains (urlDomain url) "x.com")
      ∧ urlFirstSeg url ≠ "" then
    some ("twitter:" ++ urlFirstSeg url)
  else if urlDomain url ≠ "" then some ("web:" ++ urlDomain url)
  else none

end MergeByUrls

/-- Shared generic hosts excluded from `web:` keys in `merge_with_api_names.py`. -/
def sharedHostDenylist : List String :=
  ["groups.google.com", "plus.google.com", "gitter.im", "webchat.freenode.net",
   "medium.com", "lists.sourceforge.net"]

namespace MergeWithApiNames

/-- Embedding of `normalize_url` from `merge_with_api_names.py`: identical to
the `merge_by_urls.py` version except that domains on the shared-host denylist
yield `None` instead of a `web:` key. -/
def normalize_url (url : String) : Option String :=
  if url = "" then none
  else if normStr url = "" then none
  else if urlBadBrackets url then none
  else if strContains (urlDomain url) "github.com" ∧ urlFirstSeg url ≠ "" then
    some ("github:" ++ urlFirstSeg url)
  else if (strContains (urlDomain url) "twitter.com" ∨ strContains (urlDomain url) "x.com")
      ∧ urlFirstSeg url ≠ "" then
    some ("twitter:" ++ urlFirstSeg url)
  else if urlDomain url ≠ "" ∧ urlDomain url ∉ sharedHostDenylist then
    some ("web:" ++ urlDomain url)
  else none

end MergeWithApiNames

/-! ## Similarity engine (`difflib.SequenceMatcher` and `align_with_api.py`) -/

/-- One dynamic-programming row of `SequenceMatcher.find_longest_match`:
entry `j` holds the length of the common run ending at the current `a`-element
and `b[j]`, restricted to `b`-indices in `[blo, bhi)` (the row plays the role
of Python's `j2len` dictionary, with absent keys as `0`). -/
def lcsRow (ai : Char) (b : List Char) (blo bhi : Nat) (prev : List Nat) : List Nat :=
  (List.range b.length).map (fun j =>
    if blo ≤ j ∧ j < bhi ∧ b.getD j ' ' = ai then
      (if 0 < j then prev.getD (j - 1) 0 else 0) + 1
    else 0)

/-- One `a`-iteration of `find_longest_match`: build the new row and update the
best block `(besti, bestj, bestsize)` exactly where Python's `k > bestsize`
test fires, scanning `j` in increasing order. -/
def flmStep (a b : List Char) (blo bhi : Nat)
    (st : List Nat × (Nat × Nat × Nat)) (i : Nat) : List Nat × (Nat × Nat × Nat) :=
  let row := lcsRow (a.getD i ' ') b blo bhi st.1
  let best := (List.range b.length).foldl (fun best j =>
    if blo ≤ j ∧ j < bhi then
      let k := row.getD j 0
      if best.2.2 < k then (i + 1 - k, j + 1 - k, k) else best
    else best) st.2
  (row, best)

/-- Embedding of `SequenceMatcher.find_longest_match(alo, ahi, blo, bhi)` with
no junk elements (the matcher is always constructed as
`SequenceMatcher(None, a, b)` on short strings, so the junk sets are empty and
the post-scan junk extension loops are no-ops). -/
def find_longest_match (a b : List Char) (alo ahi blo bhi : Nat) : Nat × Nat × Nat :=
  ((List.range' alo (ahi - alo)).foldl (flmStep a b blo bhi)
    (List.replicate b.length 0, (alo, blo, 0))).2

/-- Total size of the matching blocks of `SequenceMatcher.get_matching_blocks`:
the longest match splits the rectangle and both sides are processed
recursively; the fuel (one more than the total length) dominates the recursion
depth, so the embedding computes the same total as Python's queue loop. -/
def matchesTotal (a b : List Char) : Nat → Nat × Nat × Nat × Nat → Nat
  | 0, _ => 0
  | fuel + 1, (alo, ahi, blo, bhi) =>
    let m := find_longest_match a b alo ahi blo bhi
    if m.2.2 = 0 then 0
    else
      m.2.2 + matchesTotal a b fuel (alo, m.1, blo, m.2.1) +
        matchesTotal a b fuel (m.1 + m.2.2, ahi, m.2.1 + m.2.2, bhi)

/-- Embedding of `similarity_ratio` from `align_with_api.py`:
`SequenceMatcher(None, name1.lower(), name2.lower()).ratio()`, i.e.
`2 * M / T` over the lowercased names (`1.0` when both are empty, following
`_calculate_ratio`), with the float modelled as an exact rational
(`mkRat a b` is the rational `a / b`). -/
def similarity_ratio (name1 name2 : String) : ℚ :=
  let a := (pyLower name1).toList
  let b := (pyLower name2).toList
  let total := a.length + b.length
  if total = 0 then 1
  else mkRat (2 * matchesTotal a b (total + 1) (0, a.length, 0, b.length)) total

/-- Python `get_first_word` from `are_names_compatible`: first whitespace token
after dropping a leading article `the`/`a`/`an`, empty if no token remains. -/
def get_first_word (s : String) : String :=
  let ws := pySplitWs s.toList
  let ws' := match ws with
    | w :: rest => if w = "the".toList ∨ w = "a".toList ∨ w = "an".toList then rest else w :: rest
    | [] => []
  ⟨ws'.headD []⟩

/-- Suffixes stripped by `remove_suffixes` inside `are_names_compatible`. -/
def orgSuffixes : List String :=
  [" foundation", " project", " initiative", " community", " organization",
   ".org", ".com", " gmbh"]

/-- Python `remove_suffixes`: strip each listed suffix in order (re-stripping
whitespace after each removal), then a leading `"the "`. -/
def remove_suffixes (s : String) : String :=
  let s1 := orgSuffixes.foldl (fun t suf =>
    if strTrails t suf then pyStrip ⟨t.toList.take (t.toList.length - suf.toList.length)⟩
    else t) s
  if strStarts s1 "the " then pyStrip ⟨s1.toList.drop 4⟩ else s1

/-- Embedding of `are_names_compatible` from `align_with_api.py`: reject when
the first significant words exist and are less than `0.50` similar, or when the
suffix-stripped cores exist and are less than `0.60` similar. -/
def are_names_compatible (name1 name2 : String) : Bool :=
  let n1 := pyStrip (pyLower name1)
  let n2 := pyStrip (pyLower name2)
  let w1 := get_first_word n1
  let w2 := get_first_word n2
  if w1 ≠ "" ∧ w2 ≠ "" ∧ similarity_ratio w1 w2 < mkRat 1 2 then false
  else
    let c1 := remove_suffixes n1
    let c2 := remove_suffixes n2
    if c1 ≠ "" ∧ c2 ≠ "" ∧ similarity_ratio c1 c2 < mkRat 3 5 then false else true

/-- One candidate step of the `find_best_api_match` loop: skip incompatible
candidates, and replace the best so far exactly when the new ratio is strictly
greater (`if ratio > best_ratio`). -/
def fbmStep (ourName : String) (acc : Option String × ℚ) (c : String) : Option String × ℚ :=
  if are_names_compatible ourName c then
    let r := similarity_ratio ourName c
    if acc.2 < r then (some c, r) else acc
  else acc

/-- Embedding of `find_best_api_match` from `align_with_api.py`, with the
candidate organizations represented by their names (the only field read): scan
candidates in order through `fbmStep`, then report the best compatible
candidate only when its ratio reaches the threshold. -/
def find_best_api_match (ourName : String) (apiOrgs : List String) (threshold : ℚ) :
    Option String × ℚ :=
  let s := apiOrgs.foldl (fbmStep ourName) ((none : Option String), (0 : ℚ))
  if threshold ≤ s.2 then s else ((none : Option String), (0 : ℚ))

/-! ## Data model and field mergers -/

/-- The slice of a raw organization record read by the grouping and merging
code under verification: the name, the website and the two identity-bearing
social links, plus the year fields.  `Option` models absent/null values;
an absent `socials` dict and an absent key both appear as `none`. -/
structure Org where
  name : String
  website : Option String
  github : Option String
  twitter : Option String
  years_appeared : Option (List Nat)
  years_count : Option Nat
deriving DecidableEq

/-- Python truthiness filter for an optional string field
(`None` and `""` are both falsy). -/
def optTruthy : Option String → Option String
  | some s => if s = "" then none else some s
  | none => none

/-- First truthy value scanning members in input order (the socials merge loop:
`for org in orgs: ... if value: merged[key] = value; break`). -/
def firstTruthy (l : List (Option String)) : Option String :=
  (l.filterMap optTruthy).head?

/-- Concatenation of the members' year lists, the multiset the merge loops
accumulate into their `all_years` set (a missing field contributes nothing). -/
def allYears (g : List Org) : List Nat :=
  (g.map (fun o => o.years_appeared.getD [])).flatten

/-- First-occurrence deduplication with an accumulator of already-seen values:
the list of distinct values of `l` in order of first appearance. -/
def dedupFirstAux [DecidableEq α] (seen : List α) : List α → List α
  | [] => []
  | a :: l => if a ∈ seen then dedupFirstAux seen l else a :: dedupFirstAux (a :: seen) l

/-- The distinct values of `l` in order of first appearance. -/
def dedupFirst [DecidableEq α] (l : List α) : List α := dedupFirstAux [] l

/-- Python `sorted(list(set(l)))` for a list of years: distinct values in
ascending order. -/
def pySortedNat (l : List Nat) : List Nat := List.insertionSort (· ≤ ·) (dedupFirst l)

/-- Strict comparison of the name-sort keys of `merge_organizations`:
`(has "Foundation"/"Project" marker, -len(name))`, ordered lexicographically,
so that `sorted(names, key=...)[0]` is the first name minimal under this. -/
def nameSortKeyLt (n m : String) : Bool :=
  let bn := strContains n "Foundation" || strContains n "Project"
  let bm := strContains m "Foundation" || strContains m "Project"
  (!bn && bm) || (bn == bm && decide (m.length < n.length))

/-- Leftmost minimum of a name list under a strict comparison: the element
Python's stable `sorted(...)[0]` picks. -/
def firstMinBy (lt : String → String → Bool) : List String → String
  | [] => ""
  | n :: rest => rest.foldl (fun acc m => if lt m acc then m else acc) n

/-- Website reduction of the mergers: `https://` members win, else the first
truthy website, else null. -/
def mergedWebsite (g : List Org) : Option String :=
  let websites := g.filterMap (fun o => optTruthy o.website)
  let httpsSites := websites.filter (fun w => strStarts w "https://")
  httpsSites.head? <|> websites.head?

namespace MergeByUrls

/-- Embedding of `merge_organizations` from `merge_by_urls.py` on the modelled
fields: single-member groups pass through unchanged; otherwise the canonical
name is the sort-key minimum, years are the sorted set union with
`years_count = len(all_years)`, the website prefers `https://`, and each
social takes the first truthy member value. -/
def merge_organizations (orgs : List Org) : Org :=
  match orgs with
  | [] => ⟨"", none, none, none, none, none⟩
  | [o] => o
  | o1 :: o2 :: rest =>
    let g := o1 :: o2 :: rest
    let allY := allYears g
    ⟨firstMinBy nameSortKeyLt (g.map (fun o => o.name)),
     mergedWebsite g,
     firstTruthy (g.map (fun o => o.github)),
     firstTruthy (g.map (fun o => o.twitter)),
     some (pySortedNat allY),
     some (dedupFirst allY).length⟩

/-- Embedding of `extract_key_urls` from `merge_by_urls.py`: the normalized
identity keys of a record — its website key (unless it is a
`groups.google.com`/`plus.google.com` shared host), its github key when the
github social normalizes to a `github:` handle, and likewise for twitter. -/
def extract_key_urls (o : Org) : List String :=
  (match optTruthy o.website with
   | some w =>
     match normalize_url w with
     | some k =>
       if strStarts k "web:groups.google.com" = false ∧ strStarts k "web:plus.google.com" = false
       then [k] else []
     | none => []
   | none => []) ++
  (match optTruthy o.github with
   | some u =>
     match normalize_url u with
     | some k => if strStarts k "github:" then [k] else []
     | none => []
   | none => []) ++
  (match optTruthy o.twitter with
   | some u =>
     match normalize_url u with
     | some k => if strStarts k "twitter:" then [k] else []
     | none => []
   | none => [])

end MergeByUrls

namespace MergeWithApiNames

/-- Embedding of `merge_organizations(orgs, canonical_name)` from
`merge_with_api_names.py` on the modelled fields: a single member is copied
with its name replaced by the canonical name; otherwise the reduction rules
match `merge_by_urls.py` with the canonical name imposed. -/
def merge_organizations (orgs : List Org) (canonicalName : String) : Org :=
  match orgs with
  | [] => ⟨canonicalName, none, none, none, none, none⟩
  | [o] => ⟨canonicalName, o.website, o.github, o.twitter, o.years_appeared, o.years_count⟩
  | o1 :: o2 :: rest =>
    let g := o1 :: o2 :: rest
    let allY := allYears g
    ⟨canonicalName,
     mergedWebsite g,
     firstTruthy (g.map (fun o => o.github)),
     firstTruthy (g.map (fun o => o.twitter)),
     some (pySortedNat allY),
     some (dedupFirst allY).length⟩

end MergeWithApiNames

namespace AlignWithApi

/-- Embedding of `merge_orgs_for_api_match(api_org, our_orgs)` from
`align_with_api.py` on the modelled fields: the API name becomes the record
name, years are recomputed as the sorted set union over all members (whatever
the group size), scalar fields start from the first member, and a later
member's `https://` website overrides. -/
def merge_orgs_for_api_match (apiName : String) (ourOrgs : List Org) : Org :=
  match ourOrgs with
  | [] => ⟨apiName, none, none, none, none, none⟩
  | first :: rest =>
    let g := first :: rest
    let allY := allYears g
    ⟨apiName,
     rest.foldl (fun acc o =>
       match optTruthy o.website with
       | some w => if strStarts w "https://" then some w else acc
       | none => acc) first.website,
     first.github,
     first.twitter,
     some (pySortedNat allY),
     some (dedupFirst allY).length⟩

end AlignWithApi

namespace MergeOrgsByDomain

/-- Embedding of the year fields of `merge_group` from
`merge_orgs_by_domain_and_name.py`:
`years_appeared = sorted(list(set(sum(..., []))))` and
`years_count = len(merged["years_appeared"])`. -/
def merge_group_years (docs : List Org) : List Nat × Nat :=
  let ys := pySortedNat (allYears docs)
  (ys, ys.length)

end MergeOrgsByDomain

/-! ## Grouping engine (union-find of `merge_by_urls.py` `main`) -/

/-- Embedding of the `find` function of `merge_by_urls.py`: follow parent
links to the root.  The fuel argument (instantiated with the array length,
which bounds the depth of the union-generated parent forest) keeps the
recursion structural; path compression only rewrites links toward the same
root, so the returned root is unchanged by omitting it. -/
def ufFindAux : Nat → List Nat → Nat → Nat
  | 0, _, x => x
  | fuel + 1, parent, x =>
    let p := parent.getD x x
    if p = x then x else ufFindAux fuel parent p

/-- Root of `x` in the parent array (Python `find(x)`). -/
def ufFind (parent : List Nat) (x : Nat) : Nat := ufFindAux parent.length parent x

/-- Embedding of `union(x, y)`: attach the root of `x` below the root of `y`. -/
def ufUnion (parent : List Nat) (x y : Nat) : List Nat :=
  let px := ufFind parent x
  let py := ufFind parent y
  if px ≠ py then parent.set px py else parent

/-- Process one URL bucket: union the first index with every later index
(`for item in org_list[1:]: union(first_idx, item['index'])`; buckets of at
most one entry trigger nothing). -/
def applyBucket (parent : List Nat) (b : List Nat) : List Nat :=
  match b with
  | [] => parent
  | first :: rest => rest.foldl (fun p j => ufUnion p first j) parent

/-- Append index `i` to the bucket of key `k`, creating the bucket at the end
on first use (`defaultdict(list)` with insertion order). -/
def insertBucket (bs : List (String × List Nat)) (k : String) (i : Nat) :
    List (String × List Nat) :=
  match bs with
  | [] => [(k, [i])]
  | (k', l) :: rest =>
    if k' = k then (k', l ++ [i]) :: rest else (k', l) :: insertBucket rest k i

/-- The `url_to_orgs` construction of `main`: walk the records in index order
and append each record's index to the bucket of each of its identity keys. -/
def buildBucketsAux (bs : List (String × List Nat)) (i : Nat) :
    List Org → List (String × List Nat)
  | [] => bs
  | o :: rest =>
    buildBucketsAux
      ((MergeByUrls.extract_key_urls o).foldl (fun bs k => insertBucket bs k i) bs) (i + 1) rest

/-- Identity-key buckets of a record collection. -/
def buildBuckets (orgs : List Org) : List (String × List Nat) := buildBucketsAux [] 0 orgs

/-- The parent array after all URL-sharing unions of `main`. -/
def buildParent (orgs : List Org) : List Nat :=
  (buildBuckets orgs).foldl (fun p kb => applyBucket p kb.2) (List.range orgs.length)

/-- The grouping of `main`: indices bucketed by their union-find root
(`groups[find(i)].append(org)`), one group per distinct root. -/
def groupsOf (orgs : List Org) : List (List Nat) :=
  let parent := buildParent orgs
  let n := orgs.length
  let roots := (List.range n).map (ufFind parent)
  (dedupFirst roots).map (fun r => (List.range n).filter (fun i => ufFind parent i == r))

/-! ## Comparison/verification engine -/

/-- Outcome of comparing an authoritative entry's year set with ours
(`final_comparison.py`): either a perfect year-set match or a mismatch
carrying the missing years, the extra years and the integer match percent. -/
inductive YearCmp
  | perfect
  | mismatch (missing extra : List Nat) (pct : Nat)
deriving DecidableEq

/-- The `match_pct` expression of `final_comparison.py`:
`len(api & ours) * 100 // max(len(api | ours), 1)`. -/
def match_pct (apiYears ourYears : List Nat) : Nat :=
  ((apiYears.toFinset ∩ ourYears.toFinset).card * 100) /
    (max (apiYears.toFinset ∪ ourYears.toFinset).card 1)

/-- The `match_percent` expression of `final_comparison_report.py`:
`len(api & ours) * 100 // len(api | ours)` (no `max` guard). -/
def match_percent (apiYears ourYears : List Nat) : Nat :=
  ((apiYears.toFinset ∩ ourYears.toFinset).card * 100) /
    (apiYears.toFinset ∪ ourYears.toFinset).card

/-- Year-set classification of one authoritative entry present in our data
(`final_comparison.py`): `perfect` when the sets coincide, else a mismatch
with sorted missing/extra years and the integer match percent. -/
def classifyYears (apiYears ourYears : List Nat) : YearCmp :=
  if apiYears.toFinset = ourYears.toFinset then .perfect
  else
    .mismatch (pySortedNat (apiYears.filter (fun y => y ∉ ourYears)))
      (pySortedNat (ourYears.filter (fun y => y ∉ apiYears)))
      (match_pct apiYears ourYears)

/-! ## Alignment reconciler (`align_with_api.py` `main`) -/

/-- The `manual_mappings` table of `align_with_api.py`: known-problematic raw
names mapped to authoritative API names. -/
def manual_mappings : List (String × String) :=
  [("AboutCode.org", "AboutCode"),
   ("Ardupilot.org", "ArduPilot"),
   ("52° North GmbH", "52°North Spatial Information Research GmbH"),
   ("52°North GmbH", "52°North Spatial Information Research GmbH"),
   ("52° North Initiative for Geospatial Open Source Software GmbH", "52°North Spatial Information Research GmbH"),
   ("52°North Initiative for Geospatial Open Source Software GmbH", "52°North Spatial Information Research GmbH"),
   ("BeagleBoard.org Foundation", "BeagleBoard.org"),
   ("AOSSIE - Australian Open Source Software Innovation and Education", "AOSSIE - The Australian National University\x27s Open-Source Software Innovation and Education"),
   ("Berkman Klein Center for Internet & Society at Harvard University", "Berkman Klein Center for Internet and Society"),
   ("Berkman Klein Center for Internet and Society at Harvard University", "Berkman Klein Center for Internet and Society"),
   ("afl++", "AFLplusplus"),
   ("AFLplusplus", "AFLplusplus"),
   ("apertus° Association", "Apertus Association"),
   ("Apertus Association", "Apertus Association"),
   ("Canadian Center for Computational Genomics", "Canadian Centre for Computational Genomics"),
   ("Canadian Centre for Computational Genomics (C3G) - Montreal node", "Canadian Centre for Computational Genomics"),
   ("Catrobat", "Catrobat.org"),
   ("Center for Research In Open Source Software (CROSS) at UC Santa Cruz", "Center for Research in Open Source Software (CROSS)"),
   ("Center for Research in Open Source Software at UC Santa Cruz", "Center for Research in Open Source Software (CROSS)"),
   ("Center for Research in Open Source Software, UC Santa Cruz", "Center for Research in Open Source Software (CROSS)"),
   ("Ceph", "Ceph Foundation"),
   ("Ceph Foundation", "Ceph Foundation"),
   ("CHAOSS: Community Health Analytics Open Source Software", "CHAOSS"),
   ("CHAOSS Project", "CHAOSS"),
   ("Checkstyle", "checkstyle"),
   ("checkstyle", "checkstyle"),
   ("CiviCRM", "CiviCRM"),
   ("CiviCRM LLC", "CiviCRM"),
   ("Cloud Native Computing Foundation (CNCF)", "CNCF"),
   ("CNCF", "CNCF"),
   ("CRIU (Checkpoint/Restore in User-space)", "CRIU"),
   ("CRIU", "CRIU"),
   ("D Programming Language", "D Language Foundation"),
   ("Debian", "Debian"),
   ("Debian Project", "Debian"),
   ("Department of Biomedical Informatics (BMI), Emory University School of Medicine", "Department of Biomedical Informatics, Emory University"),
   ("Earth Science Information Partners (ESIP)", "Earth Science Information Partners"),
   ("The Eclipse Foundation", "Eclipse Foundation"),
   ("Elm Tooling", "Elm Software Foundation"),
   ("Eta", "Eta"),
   ("FOSDEM VZW", "FOSDEM"),
   ("FOSSology", "FOSSology"),
   ("FOSSology Project", "FOSSology"),
   ("Freifunk", "freifunk"),
   ("freifunk", "freifunk"),
   ("GENIVI Alliance", "COVESA"),
   ("Inkscape Project", "Inkscape"),
   ("Intel Media and Audio for Linux", "Intel Video and Audio for Linux"),
   ("Intel Media And Audio For Linux", "Intel Video and Audio for Linux"),
   ("Kodi Foundation", "Kodi"),
   ("MariaDB Foundation", "MariaDB"),
   ("MetaBrainz Foundation Inc", "MetaBrainz Foundation Inc"),
   ("MetaBrainz Foundation", "MetaBrainz Foundation Inc"),
   ("Open Roberta Lab", "Open Roberta"),
   ("R Foundation for Statistical Computing", "R project for statistical computing"),
   ("Scala", "Scala Center"),
   ("Shogun", "Shogun"),
   ("shogun.ml", "Shogun"),
   ("Software and Computational Systems Lab at LMU Munich", "Software and Computational Systems Lab, LMU Munich"),
   ("Software Heritage", "The Software Heritage Project"),
   ("The CGAL Project", "CGAL Project"),
   ("CGAL project", "CGAL Project"),
   ("CGAL Project", "CGAL Project"),
   ("The FreeBSD Project", "The FreeBSD Project"),
   ("FreeBSD", "The FreeBSD Project"),
   ("The FreeType Project", "FreeType"),
   ("The GNU Project", "GNU Project"),
   ("The MacPorts Project", "MacPorts"),
   ("The STE||AR Group", "Ste||ar group"),
   ("TimVideos", "TimVideos.us"),
   ("XBMC Foundation", "Kodi")]

/-- Which resolution path `main` takes for one merged record: the manual alias
table, an exact name hit, a fuzzy match, or no match. -/
inductive MatchPath
  | aliasMatch (target : String)
  | exactMatch
  | fuzzyMatch (target : String)
  | unmatched
deriving DecidableEq

/-- Exact-then-fuzzy fallback of the matching loop, reached when the alias
table does not decide the record. -/
def resolve_fallback (ourName : String) (apiNames : List String) : MatchPath :=
  if ourName ∈ apiNames then .exactMatch
  else
    match (find_best_api_match ourName apiNames (mkRat 22 25)).1 with
    | some c => .fuzzyMatch c
    | none => .unmatched

/-- Embedding of the per-record resolution order of `main`: a manual alias
whose target exists in the API wins outright; otherwise exact name match, then
fuzzy match at threshold `0.88 = 22/25`. -/
def resolve_org (ourName : String) (apiNames : List String) : MatchPath :=
  match manual_mappings.lookup ourName with
  | some t => if t ∈ apiNames then .aliasMatch t else resolve_fallback ourName apiNames
  | none => resolve_fallback ourName apiNames

/-! ## Basic lemmas about the helper functions -/

theorem mem_dedupFirstAux [DecidableEq α] (x : α) (l : List α) :
    ∀ seen, x ∈ dedupFirstAux seen l ↔ x ∈ l ∧ x ∉ seen := by
  induction l with
  | nil => intro seen; simp [dedupFirstAux]
  | cons a l ih =>
    intro seen
    simp only [dedupFirstAux]
    by_cases h : a ∈ seen
    · simp only [if_pos h, ih, List.mem_cons]
      constructor
      · rintro ⟨hx, hs⟩
        exact ⟨Or.inr hx, hs⟩
      · rintro ⟨rfl | hx, hs⟩
        · exact absurd h hs
        · exact ⟨hx, hs⟩
    · simp only [if_neg h, List.mem_cons, ih]
      constructor
      · rintro (rfl | ⟨hx, hs⟩)
        · exact ⟨Or.inl rfl, h⟩
        · exact ⟨Or.inr hx, fun hc => hs (Or.inr hc)⟩
      · rintro ⟨rfl | hx, hs⟩
        · exact Or.inl rfl
        · rcases eq_or_ne x a with rfl | hxa
          · exact Or.inl rfl
          · exact Or.inr ⟨hx, fun hc => by rcases hc with hc | hc; exact hxa hc; exact hs hc⟩

theorem nodup_dedupFirstAux [DecidableEq α] (l : List α) :
    ∀ seen, (dedupFirstAux seen l).Nodup := by
  induction l with
  | nil => intro seen; simp [dedupFirstAux]
  | cons a l ih =>
    intro seen
    simp only [dedupFirstAux]
    by_cases h : a ∈ seen
    · simpa [if_pos h] using ih seen
    · simp only [if_neg h]
      refine List.nodup_cons.mpr ⟨?_, ih _⟩
      rw [mem_dedupFirstAux]
      rintro ⟨-, hs⟩
      exact hs (List.mem_cons_self a seen)

theorem mem_dedupFirst [DecidableEq α] (x : α) (l : List α) : x ∈ dedupFirst l ↔ x ∈ l := by
  simp [dedupFirst, mem_dedupFirstAux]

theorem nodup_dedupFirst [DecidableEq α] (l : List α) : (dedupFirst l).Nodup :=
  nodup_dedupFirstAux l []

theorem pySortedNat_perm (l : List Nat) : List.Perm (pySortedNat l) (dedupFirst l) :=
  List.perm_insertionSort _ _

theorem pySortedNat_mem (y : Nat) (l : List Nat) : y ∈ pySortedNat l ↔ y ∈ l := by
  rw [(pySortedNat_perm l).mem_iff, mem_dedupFirst]

theorem pySortedNat_sorted (l : List Nat) : (pySortedNat l).Sorted (· ≤ ·) :=
  List.sorted_insertionSort _ _

theorem pySortedNat_nodup (l : List Nat) : (pySortedNat l).Nodup :=
  (pySortedNat_perm l).nodup_iff.mpr (nodup_dedupFirst l)

theorem pySortedNat_length (l : List Nat) : (pySortedNat l).length = (dedupFirst l).length :=
  (pySortedNat_perm l).length_eq

theorem mem_allYears (y : Nat) (g : List Org) :
    y ∈ allYears g ↔ ∃ o ∈ g, y ∈ o.years_appeared.getD [] := by
  simp [allYears, List.mem_flatten]

/-! ## Claim theorems: merging and comparison -/

/-- C1: for every group of raw records, the `years_appeared` of the record
produced by a merger (`merge_organizations` of `merge_by_urls.py` and
`merge_orgs_for_api_match` of `align_with_api.py`) contains exactly the years
of the members — a year belongs to the merged record iff some member carries
it, so no year on any member is ever dropped; in particular merging year sets
`{2016, 2018}` and `{2017, 2018}` yields `{2016, 2017, 2018}`. -/
theorem c1_merge_years_union (g : List Org) (y : Nat) (apiName : String) :
    ((y ∈ (MergeByUrls.merge_organizations g).years_appeared.getD [] ↔
        ∃ o ∈ g, y ∈ o.years_appeared.getD []) ∧
      (y ∈ (AlignWithApi.merge_orgs_for_api_match apiName g).years_appeared.getD [] ↔
        ∃ o ∈ g, y ∈ o.years_appeared.getD [])) ∧
    (MergeByUrls.merge_organizations
        [⟨"A", none, none, none, some [2016, 2018], some 2⟩,
         ⟨"B", none, none, none, some [2017, 2018], some 2⟩]).years_appeared =
      some [2016, 2017, 2018] := by
  refine ⟨⟨?_, ?_⟩, by decide⟩
  · rcases g with - | ⟨o1, - | ⟨o2, rest⟩⟩
    · simp [MergeByUrls.merge_organizations]
    · simp [MergeByUrls.merge_organizations]
    · show y ∈ (some (pySortedNat (allYears (o1 :: o2 :: rest)))).getD [] ↔ _
      rw [Option.getD_some, pySortedNat_mem, mem_allYears]
  · rcases g with - | ⟨first, rest⟩
    · simp [AlignWithApi.merge_orgs_for_api_match]
    · show y ∈ (some (pySortedNat (allYears (first :: rest)))).getD [] ↔ _
      rw [Option.getD_some, pySortedNat_mem, mem_allYears]

/-- C10 (implicit): every record produced by merging a multi-member group, in
each of the four merge functions, satisfies `years_count = len(years_appeared)`
and has a `years_appeared` list that is ascending and duplicate-free. -/
theorem c10_merged_years_invariant (g : List Org) (h : 2 ≤ g.length)
    (canonicalName apiName : String) :
    ((MergeByUrls.merge_organizations g).years_count =
        some ((MergeByUrls.merge_organizations g).years_appeared.getD []).length ∧
      ((MergeByUrls.merge_organizations g).years_appeared.getD []).Sorted (· ≤ ·) ∧
      ((MergeByUrls.merge_organizations g).years_appeared.getD []).Nodup) ∧
    ((MergeWithApiNames.merge_organizations g canonicalName).years_count =
        some ((MergeWithApiNames.merge_organizations g canonicalName).years_appeared.getD
          []).length ∧
      ((MergeWithApiNames.merge_organizations g canonicalName).years_appeared.getD
        []).Sorted (· ≤ ·) ∧
      ((MergeWithApiNames.merge_organizations g canonicalName).years_appeared.getD []).Nodup) ∧
    ((AlignWithApi.merge_orgs_for_api_match apiName g).years_count =
        some ((AlignWithApi.merge_orgs_for_api_match apiName g).years_appeared.getD
          []).length ∧
      ((AlignWithApi.merge_orgs_for_api_match apiName g).years_appeared.getD
        []).Sorted (· ≤ ·) ∧
      ((AlignWithApi.merge_orgs_for_api_match apiName g).years_appeared.getD []).Nodup) ∧
    ((MergeOrgsByDomain.merge_group_years g).2 =
        (MergeOrgsByDomain.merge_group_years g).1.length ∧
      (MergeOrgsByDomain.merge_group_years g).1.Sorted (· ≤ ·) ∧
      (MergeOrgsByDomain.merge_group_years g).1.Nodup) := by
  rcases g with - | ⟨o1, - | ⟨o2, rest⟩⟩
  · simp at h
  · simp at h
  · refine ⟨⟨?_, pySortedNat_sorted _, pySortedNat_nodup _⟩,
      ⟨?_, pySortedNat_sorted _, pySortedNat_nodup _⟩,
      ⟨?_, pySortedNat_sorted _, pySortedNat_nodup _⟩,
      rfl, pySortedNat_sorted _, pySortedNat_nodup _⟩
    · exact congrArg some (pySortedNat_length _).symm
    · exact congrArg some (pySortedNat_length _).symm
    · exact congrArg some (pySortedNat_length _).symm

/-- Witness for C10: the invariant instantiated on a concrete two-member
group. -/
theorem c10_merged_years_invariant_witness :
    2 ≤ ([(⟨"A", none, none, none, some [2018, 2016], none⟩ : Org),
          ⟨"B", none, none, none, some [2017, 2018], none⟩] : List Org).length ∧
    (MergeByUrls.merge_organizations
        [(⟨"A", none, none, none, some [2018, 2016], none⟩ : Org),
         ⟨"B", none, none, none, some [2017, 2018], none⟩]).years_count =
      some ((MergeByUrls.merge_organizations
        [(⟨"A", none, none, none, some [2018, 2016], none⟩ : Org),
         ⟨"B", none, none, none, some [2017, 2018], none⟩]).years_appeared.getD []).length :=
  ⟨by decide,
    (c10_merged_years_invariant
      [⟨"A", none, none, none, some [2018, 2016], none⟩,
       ⟨"B", none, none, none, some [2017, 2018], none⟩] (by decide) "X" "Y").1.1⟩

/-- C8: whenever the comparison engine classifies an authoritative entry as a
year mismatch (both year sets present, not equal), the reported match percent
is `|api ∩ ours| * 100` floor-divided by `|api ∪ ours|`; the `max(..., 1)`
guard of `final_comparison.py` collapses and the formula agrees with the
guard-free `match_percent` of `final_comparison_report.py`. -/
theorem c8_year_mismatch_percent (api our m e : List Nat) (p : Nat)
    (h : classifyYears api our = .mismatch m e p) :
    p = ((api.toFinset ∩ our.toFinset).card * 100) / (api.toFinset ∪ our.toFinset).card ∧
    p = match_percent api our := by
  unfold classifyYears at h
  split at h
  · exact absurd h (by simp)
  · next hne =>
    injection h with hm he hp
    subst hp
    have hcard : 1 ≤ (api.toFinset ∪ our.toFinset).card := by
      rcases Finset.eq_empty_or_nonempty (api.toFinset ∪ our.toFinset) with hemp | hne2
      · exfalso
        apply hne
        have h2 := Finset.union_eq_empty.mp hemp
        rw [h2.1, h2.2]
      · exact Finset.card_pos.mpr hne2
    unfold match_pct match_percent
    rw [Nat.max_eq_left hcard]
    exact ⟨rfl, rfl⟩

/-- Witness for C8: the year-mismatch classification and percent formula on
the concrete sets `{2016, 2018}` and `{2017, 2018}` (one shared year of three,
33 percent). -/
theorem c8_year_mismatch_percent_witness :
    classifyYears [2016, 2018] [2017, 2018] = .mismatch [2016] [2017] 33 ∧
    (33 : Nat) = match_percent [2016, 2018] [2017, 2018] :=
  ⟨by decide, (c8_year_mismatch_percent [2016, 2018] [2017, 2018] [2016] [2017] 33 (by decide)).2⟩

/-- C5: a merged record whose name is a key of the manual alias table with a
target present in the authoritative collection is resolved through the alias
path — the result is `aliasMatch target` for every authoritative name list and
irrespective of what exact or fuzzy matching would say. -/
theorem c5_alias_precedence (ourName t : String) (apiNames : List String)
    (h1 : manual_mappings.lookup ourName = some t) (h2 : t ∈ apiNames) :
    resolve_org ourName apiNames = .aliasMatch t := by
  unfold resolve_org
  rw [h1]
  simp [h2]

/-- Witness for C5: the record named `AboutCode.org` aligns to the
authoritative name `AboutCode` via the alias path. -/
theorem c5_alias_precedence_witness :
    manual_mappings.lookup "AboutCode.org" = some "AboutCode" ∧
    resolve_org "AboutCode.org" ["AboutCode", "PEcAn"] = .aliasMatch "AboutCode" :=
  ⟨by decide, c5_alias_precedence "AboutCode.org" "AboutCode" ["AboutCode", "PEcAn"]
    (by decide) (by decide)⟩

/-- C7: the compatibility pre-filter rejects the pair `("Debian", "PEcAn")`:
the first-word ratio is `6/11 ≈ 0.545` (so the `< 0.50` check passes), but the
suffix-stripped cores are the same strings and their ratio `6/11` is below
`0.60`, so the second check fires and the result is `False`. -/
theorem c7_debian_pecan_incompatible : are_names_compatible "Debian" "PEcAn" = false := by
  decide

/-- C9: the normalizer maps `https://github.com/foo/` and
`http://www.github.com/foo` to the same key `github:foo` — the output is
invariant under scheme, a leading `www.` and a trailing slash for github URLs
with one path segment. -/
theorem c9_normalize_key_symmetry :
    MergeByUrls.normalize_url "https://github.com/foo/" = some "github:foo" ∧
    MergeByUrls.normalize_url "http://www.github.com/foo" = some "github:foo" ∧
    MergeByUrls.normalize_url "https://github.com/foo/" =
      MergeByUrls.normalize_url "http://www.github.com/foo" := by
  exact ⟨by decide, by decide, by decide⟩

/-! ## Claim theorems: the identity normalizer on platform hosts (C3) -/

theorem denylist_no_platform (d : String) (hd : d ∈ sharedHostDenylist) :
    strContains d "github.com" = false ∧ strContains d "twitter.com" = false ∧
    strContains d "x.com" = false := by
  fin_cases hd <;> exact ⟨by decide, by decide, by decide⟩

/-- C3 counterexample: on the bare-host URL `https://github.com` the normalizer
does not return null — it falls through to the web rule and returns
`web:github.com`. -/
theorem c3_counterexample :
    MergeByUrls.normalize_url "https://github.com" = some "web:github.com" ∧
    MergeByUrls.normalize_url "https://github.com" ≠ none :=
  ⟨by decide, by decide⟩

/-- C3 amended: a URL whose domain contains `github.com` (or
`twitter.com`/`x.com`) but which has no nonempty first path segment gets no
platform handle key; instead both normalizers fall through to the web rule and
return `web:<domain>` (not null), provided the netloc has no stray IPv6
bracket (where `urlparse` raises and the normalizers do return null). -/
theorem c3_bare_platform_host_web_key (url : String)
    (h0 : urlBadBrackets url = false)
    (h1 : strContains (urlDomain url) "github.com" = true ∨
      strContains (urlDomain url) "twitter.com" = true ∨
      strContains (urlDomain url) "x.com" = true)
    (h2 : urlFirstSeg url = "") :
    MergeByUrls.normalize_url url = some ("web:" ++ urlDomain url) ∧
    MergeWithApiNames.normalize_url url = some ("web:" ++ urlDomain url) := by
  have hu : ¬ url = "" := by
    rintro rfl
    rcases h1 with h1 | h1 | h1 <;> exact absurd h1 (by decide)
  have hns : ¬ normStr url = "" := by
    intro he
    have hdom : urlDomain url = "" := by
      unfold urlDomain
      rw [he]
      decide
    rw [hdom] at h1
    rcases h1 with h1 | h1 | h1 <;> exact absurd h1 (by decide)
  have hdne : ¬ urlDomain url = "" := by
    intro hdom
    rw [hdom] at h1
    rcases h1 with h1 | h1 | h1 <;> exact absurd h1 (by decide)
  have hbr : ¬ (urlBadBrackets url = true) := by simp [h0]
  constructor
  · unfold MergeByUrls.normalize_url
    split_ifs with g1 g2
    · exact absurd h2 g1.2
    · exact absurd h2 g2.2
    · rfl
  · unfold MergeWithApiNames.normalize_url
    split_ifs with g1 g2 g3
    · exact absurd h2 g1.2
    · exact absurd h2 g2.2
    · rfl
    · exfalso
      rw [not_and_or] at g3
      rcases g3 with g3 | g3
      · exact g3 hdne
      · rw [not_not] at g3
        rcases h1 with h1 | h1 | h1
        · exact absurd h1 (by rw [(denylist_no_platform _ g3).1]; decide)
        · exact absurd h1 (by rw [(denylist_no_platform _ g3).2.1]; decide)
        · exact absurd h1 (by rw [(denylist_no_platform _ g3).2.2]; decide)

/-- Witness for the amended C3: the bare host `https://github.com` gets the
web key `web:github.com` from both normalizers. -/
theorem c3_bare_platform_host_web_key_witness :
    urlBadBrackets "https://github.com" = false ∧
    MergeByUrls.normalize_url "https://github.com" =
      some ("web:" ++ urlDomain "https://github.com") ∧
    MergeWithApiNames.normalize_url "https://github.com" =
      some ("web:" ++ urlDomain "https://github.com") :=
  ⟨by decide,
    (c3_bare_platform_host_web_key "https://github.com" (by decide) (Or.inl (by decide))
      (by decide)).1,
    (c3_bare_platform_host_web_key "https://github.com" (by decide) (Or.inl (by decide))
      (by decide)).2⟩

/-! ## Union-find invariants for indices never mentioned in a union -/

/-- Index `t` is isolated in the parent array: it is its own parent and no
other entry points at it.  This holds initially and is preserved by every
union whose arguments differ from `t`. -/
def Untouched (t : Nat) (parent : List Nat) : Prop :=
  parent.getD t t = t ∧ ∀ k, k ≠ t → parent.getD k k ≠ t

theorem ufFindAux_ne (t : Nat) (parent : List Nat) (hp : Untouched t parent) :
    ∀ fuel x, x ≠ t → ufFindAux fuel parent x ≠ t := by
  intro fuel
  induction fuel with
  | zero => intro x hx; exact hx
  | succ f ih =>
    intro x hx
    simp only [ufFindAux]
    split
    · exact hx
    · exact ih _ (hp.2 x hx)

theorem ufFindAux_self (t : Nat) (parent : List Nat) (hp : Untouched t parent) :
    ∀ fuel, ufFindAux fuel parent t = t := by
  intro fuel
  cases fuel with
  | zero => rfl
  | succ f =>
    simp only [ufFindAux]
    rw [if_pos hp.1]

theorem getD_set_ne (l : List Nat) (m k a : Nat) (h : m ≠ k) :
    (l.set m a).getD k k = l.getD k k := by
  rw [List.getD_eq_getElem?_getD, List.getD_eq_getElem?_getD, List.getElem?_set_ne h]

theorem getD_set_self_ne (l : List Nat) (m a t : Nat) (hm : m ≠ t) (ha : a ≠ t) :
    (l.set m a).getD m m ≠ t := by
  by_cases h : m < l.length
  · rw [List.getD_eq_getElem?_getD, List.getElem?_set, if_pos rfl, if_pos h]
    simpa using ha
  · rw [List.set_eq_of_length_le (Nat.le_of_not_lt h), List.getD_eq_getElem?_getD,
      List.getElem?_eq_none (Nat.le_of_not_lt h)]
    simpa using hm

theorem untouched_ufUnion (t : Nat) (parent : List Nat) (x y : Nat)
    (hp : Untouched t parent) (hx : x ≠ t) (hy : y ≠ t) :
    Untouched t (ufUnion parent x y) := by
  have hpx : ufFind parent x ≠ t := ufFindAux_ne t parent hp _ x hx
  have hpy : ufFind parent y ≠ t := ufFindAux_ne t parent hp _ y hy
  simp only [ufUnion]
  split
  · constructor
    · rw [getD_set_ne _ _ _ _ hpx]
      exact hp.1
    · intro k hk
      by_cases hkpx : k = ufFind parent x
      · subst hkpx
        exact getD_set_self_ne _ _ _ _ hpx hpy
      · rw [getD_set_ne _ _ _ _ (fun h => hkpx h.symm)]
        exact hp.2 k hk
  · exact hp

theorem untouched_foldl_union (t first : Nat) (hf : first ≠ t) :
    ∀ (rest : List Nat), (∀ j ∈ rest, j ≠ t) →
      ∀ parent, Untouched t parent →
        Untouched t (rest.foldl (fun p j => ufUnion p first j) parent) := by
  intro rest
  induction rest with
  | nil => intro _ parent hp; exact hp
  | cons j js ih =>
    intro hjs parent hp
    simp only [List.foldl_cons]
    exact ih (fun x hx => hjs x (List.mem_cons_of_mem _ hx)) _
      (untouched_ufUnion t parent first j hp hf (hjs j (List.mem_cons_self _ _)))

theorem untouched_applyBucket (t : Nat) (b : List Nat) (hb : t ∉ b) :
    ∀ parent, Untouched t parent → Untouched t (applyBucket parent b) := by
  cases b with
  | nil => intro parent hp; exact hp
  | cons first rest =>
    intro parent hp
    have hf : first ≠ t := fun h => hb (h ▸ List.mem_cons_self _ _)
    have hr : ∀ j ∈ rest, j ≠ t := fun j hj h => hb (h ▸ List.mem_cons_of_mem _ hj)
    exact untouched_foldl_union t first hf rest hr parent hp

theorem untouched_buckets (t : Nat) :
    ∀ (bks : List (String × List Nat)), (∀ p ∈ bks, t ∉ p.2) →
      ∀ parent, Untouched t parent →
        Untouched t (bks.foldl (fun p kb => applyBucket p kb.2) parent) := by
  intro bks
  induction bks with
  | nil => intro _ parent hp; exact hp
  | cons kb rest ih =>
    intro hb parent hp
    simp only [List.foldl_cons]
    exact ih (fun p hp2 => hb p (List.mem_cons_of_mem _ hp2)) _
      (untouched_applyBucket t kb.2 (hb kb (List.mem_cons_self _ _)) parent hp)

theorem mem_insertBucket (bs : List (String × List Nat)) (k : String) (i : Nat) :
    ∀ p ∈ insertBucket bs k i, ∀ y ∈ p.2, (∃ q ∈ bs, y ∈ q.2) ∨ y = i := by
  induction bs with
  | nil =>
    intro p hp y hy
    simp only [insertBucket, List.mem_singleton] at hp
    subst hp
    simp only [List.mem_singleton] at hy
    exact Or.inr hy
  | cons q rest ih =>
    obtain ⟨k2, l⟩ := q
    intro p hp y hy
    simp only [insertBucket] at hp
    split at hp
    · rcases List.mem_cons.mp hp with rfl | hp2
      · rcases List.mem_append.mp hy with hyl | hyi
        · exact Or.inl ⟨(k2, l), List.mem_cons_self _ _, hyl⟩
        · exact Or.inr (List.mem_singleton.mp hyi)
      · exact Or.inl ⟨p, List.mem_cons_of_mem _ hp2, hy⟩
    · rcases List.mem_cons.mp hp with rfl | hp2
      · exact Or.inl ⟨(k2, l), List.mem_cons_self _ _, hy⟩
      · rcases ih p hp2 y hy with ⟨q2, hq2, hyq2⟩ | h
        · exact Or.inl ⟨q2, List.mem_cons_of_mem _ hq2, hyq2⟩
        · exact Or.inr h

theorem no_mention_insert_fold (t i : Nat) (hti : t ≠ i) (keys : List String) :
    ∀ bs, (∀ p ∈ bs, t ∉ p.2) →
      ∀ p ∈ keys.foldl (fun bs k => insertBucket bs k i) bs, t ∉ p.2 := by
  induction keys with
  | nil => intro bs hbs; exact hbs
  | cons k ks ih =>
    intro bs hbs
    simp only [List.foldl_cons]
    apply ih
    intro p hp ht
    rcases mem_insertBucket bs k i p hp t ht with ⟨q, hq, hqt⟩ | h
    · exact hbs q hq hqt
    · exact hti h

theorem buckets_aux_no_mention (t : Nat) :
    ∀ (orgs : List Org) (start : Nat) (bs : List (String × List Nat)),
      (∀ p ∈ bs, t ∉ p.2) →
      (∀ (k : Nat) (hk : k < orgs.length), start + k = t →
        MergeByUrls.extract_key_urls (orgs.get ⟨k, hk⟩) = []) →
      ∀ p ∈ buildBucketsAux bs start orgs, t ∉ p.2 := by
  intro orgs
  induction orgs with
  | nil => intro start bs hbs _; exact hbs
  | cons o rest ih =>
    intro start bs hbs hkeys
    simp only [buildBucketsAux]
    by_cases hst : start = t
    · have hko : MergeByUrls.extract_key_urls o = [] := hkeys 0 (by simp) (by omega)
      rw [hko]
      simp only [List.foldl_nil]
      exact ih (start + 1) bs hbs (fun k hk hek => absurd hek (by omega))
    · apply ih (start + 1)
      · exact no_mention_insert_fold t start (fun h => hst h.symm) _ bs hbs
      · intro k hk hek
        exact hkeys (k + 1) (by simpa using Nat.succ_lt_succ hk) (by omega)

theorem untouched_range (t n : Nat) : Untouched t (List.range n) := by
  constructor
  · by_cases h : t < n
    · rw [List.getD_eq_getElem?_getD, List.getElem?_range h]
      rfl
    · rw [List.getD_eq_getElem?_getD, List.getElem?_eq_none (by simpa using Nat.le_of_not_lt h)]
      rfl
  · intro k hk
    by_cases h : k < n
    · rw [List.getD_eq_getElem?_getD, List.getElem?_range h]
      exact hk
    · rw [List.getD_eq_getElem?_getD, List.getElem?_eq_none (by simpa using Nat.le_of_not_lt h)]
      exact hk

theorem untouched_buildParent (orgs : List Org) (t : Nat)
    (ht : ∀ hk : t < orgs.length, MergeByUrls.extract_key_urls (orgs.get ⟨t, hk⟩) = []) :
    Untouched t (buildParent orgs) := by
  unfold buildParent
  apply untouched_buckets
  · unfold buildBuckets
    apply buckets_aux_no_mention t orgs 0 [] (by simp)
    intro k hk hek
    have hkt : k = t := by omega
    subst hkt
    exact ht hk
  · exact untouched_range t _

/-! ## Claim theorems: the shared-host denylist and the grouping (C4) -/

/-- C4 counterexample: `medium.com` is on the denylist of
`merge_with_api_names.py`, yet the union-find grouping of `merge_by_urls.py`
uses its own normalizer without that denylist, so two records sharing only a
`medium.com` website are unioned into one group there. -/
theorem c4_counterexample :
    MergeWithApiNames.normalize_url "https://medium.com" = none ∧
    ∃ grp ∈ groupsOf
        [(⟨"A", some "https://medium.com", none, none, none, none⟩ : Org),
         ⟨"B", some "https://medium.com", none, none, none, none⟩],
      0 ∈ grp ∧ 1 ∈ grp :=
  ⟨by decide, by decide⟩

/-- C4 amended: the `merge_with_api_names.py` normalizer returns null for
every URL whose domain is on the shared-host denylist (so that pipeline
derives no `web:` key from such hosts); and in the union-find grouping of
`merge_by_urls.py` a record with no surviving identity keys — as happens when
its only URL is a `groups.google.com`/`plus.google.com` website, the hosts
that pipeline's own filter drops — is never unioned with any other record.
(Sharing one of the other denylisted hosts, e.g. `medium.com`, does produce a
key in `merge_by_urls.py` and does union, per the counterexample.) -/
theorem c4_denylist_no_web_key (url : String) (orgs : List Org) (i j : Nat)
    (hd : urlDomain url ∈ sharedHostDenylist)
    (hi : i < orgs.length) (hij : i ≠ j)
    (hkeys : MergeByUrls.extract_key_urls (orgs.get ⟨i, hi⟩) = []) :
    MergeWithApiNames.normalize_url url = none ∧
    ∀ grp ∈ groupsOf orgs, ¬ (i ∈ grp ∧ j ∈ grp) := by
  constructor
  · unfold MergeWithApiNames.normalize_url
    split_ifs with g1 g2 g3 g4 g5 g6
    · rfl
    · rfl
    · rfl
    · exact absurd g4.1 (by rw [(denylist_no_platform _ hd).1]; decide)
    · exfalso
      rcases g5.1 with h | h
      · exact absurd h (by rw [(denylist_no_platform _ hd).2.1]; decide)
      · exact absurd h (by rw [(denylist_no_platform _ hd).2.2]; decide)
    · exact absurd hd g6.2
    · rfl
  · intro grp hgrp hmem
    obtain ⟨higrp, hjgrp⟩ := hmem
    have hunt : Untouched i (buildParent orgs) :=
      untouched_buildParent orgs i (fun hk => hkeys)
    have hfi : ufFind (buildParent orgs) i = i := ufFindAux_self i _ hunt _
    have hfj : ufFind (buildParent orgs) j ≠ i :=
      ufFindAux_ne i _ hunt _ j (Ne.symm hij)
    simp only [groupsOf] at hgrp
    rcases List.mem_map.mp hgrp with ⟨r, hr, rfl⟩
    have h1 := (List.mem_filter.mp higrp).2
    have h2 := (List.mem_filter.mp hjgrp).2
    rw [beq_iff_eq] at h1 h2
    rw [hfi] at h1
    rw [← h1] at h2
    exact hfj h2

/-- Witness for the amended C4: `https://medium.com` gets no key from the
denylist-aware normalizer, and a record whose only URL is a
`groups.google.com` website shares no group with the other record. -/
theorem c4_denylist_no_web_key_witness :
    urlDomain "https://medium.com" ∈ sharedHostDenylist ∧
    MergeWithApiNames.normalize_url "https://medium.com" = none ∧
    ∀ grp ∈ groupsOf
        [(⟨"G", some "https://groups.google.com/forum/x", none, none, none, none⟩ : Org),
         ⟨"H", some "https://github.com/h", none, none, none, none⟩],
      ¬ (0 ∈ grp ∧ 1 ∈ grp) :=
  ⟨by decide,
    (c4_denylist_no_web_key "https://medium.com"
      [⟨"G", some "https://groups.google.com/forum/x", none, none, none, none⟩,
       ⟨"H", some "https://github.com/h", none, none, none, none⟩] 0 1
      (by decide) (by decide) (by decide) (by decide)).1,
    (c4_denylist_no_web_key "https://medium.com"
      [⟨"G", some "https://groups.google.com/forum/x", none, none, none, none⟩,
       ⟨"H", some "https://github.com/h", none, none, none, none⟩] 0 1
      (by decide) (by decide) (by decide) (by decide)).2⟩

/-- C2: the groups the union-find grouping engine outputs partition the index
set — every index below the collection length lies in exactly one group, and
groups contain only valid indices. -/
theorem c2_grouping_partition (orgs : List Org) (i : Nat) (h : i < orgs.length) :
    (groupsOf orgs).countP (fun grp => decide (i ∈ grp)) = 1 ∧
    ∀ grp ∈ groupsOf orgs, ∀ j ∈ grp, j < orgs.length := by
  constructor
  · simp only [groupsOf]
    rw [List.countP_map]
    have hpred : ∀ r ∈ dedupFirst ((List.range orgs.length).map (ufFind (buildParent orgs))),
        ((fun grp => decide (i ∈ grp)) ∘
          (fun r => (List.range orgs.length).filter
            (fun x => ufFind (buildParent orgs) x == r))) r ↔
          (r == ufFind (buildParent orgs) i) := by
      intro r _
      simp only [Function.comp_apply, decide_eq_true_eq, List.mem_filter, List.mem_range,
        beq_iff_eq]
      constructor
      · exact fun hx => hx.2.symm
      · exact fun hx => ⟨h, hx.symm⟩
    rw [List.countP_congr hpred]
    have hmem : ufFind (buildParent orgs) i ∈
        dedupFirst ((List.range orgs.length).map (ufFind (buildParent orgs))) :=
      (mem_dedupFirst _ _).mpr (List.mem_map.mpr ⟨i, List.mem_range.mpr h, rfl⟩)
    exact List.count_eq_one_of_mem (nodup_dedupFirst _) hmem
  · intro grp hgrp j hj
    simp only [groupsOf] at hgrp
    rcases List.mem_map.mp hgrp with ⟨r, _, rfl⟩
    exact List.mem_range.mp (List.mem_filter.mp hj).1

/-- Witness for C2: the partition count on a concrete two-record collection. -/
theorem c2_grouping_partition_witness :
    0 < ([(⟨"A", some "https://medium.com", none, none, none, none⟩ : Org),
          ⟨"B", some "https://medium.com", none, none, none, none⟩] : List Org).length ∧
    (groupsOf [(⟨"A", some "https://medium.com", none, none, none, none⟩ : Org),
               ⟨"B", some "https://medium.com", none, none, none, none⟩]).countP
        (fun grp => decide (0 ∈ grp)) = 1 :=
  ⟨by decide,
    (c2_grouping_partition
      [⟨"A", some "https://medium.com", none, none, none, none⟩,
       ⟨"B", some "https://medium.com", none, none, none, none⟩] 0 (by decide)).1⟩

/-! ## Claim theorems: best-match selection (C6) -/

theorem similarity_ratio_nonneg (a b : String) : 0 ≤ similarity_ratio a b := by
  simp only [similarity_ratio]
  split
  · norm_num
  · rw [Rat.mkRat_eq_div]
    positivity

/-- Invariant of the `find_best_api_match` scan after the listed candidates
have been processed: either nothing compatible scored positively, or the
accumulator holds the first compatible candidate attaining the running
maximum, with every earlier compatible candidate strictly below it and every
later one at most it. -/
def FbmInv (ourName : String) (processed : List String) (acc : Option String × ℚ) : Prop :=
  match acc.1 with
  | none => acc.2 = 0 ∧
      ∀ c ∈ processed, are_names_compatible ourName c = true → similarity_ratio ourName c ≤ 0
  | some b => are_names_compatible ourName b = true ∧ acc.2 = similarity_ratio ourName b ∧
      0 < acc.2 ∧
      ∃ l1 l2, processed = l1 ++ b :: l2 ∧
        (∀ c ∈ l1, are_names_compatible ourName c = true →
          similarity_ratio ourName c < acc.2) ∧
        (∀ c ∈ l2, are_names_compatible ourName c = true →
          similarity_ratio ourName c ≤ acc.2)

theorem fbmStep_inv (ourName : String) (processed : List String) (acc : Option String × ℚ)
    (c : String) (h : FbmInv ourName processed acc) :
    FbmInv ourName (processed ++ [c]) (fbmStep ourName acc c) := by
  unfold fbmStep
  by_cases hc : are_names_compatible ourName c = true
  · rw [if_pos hc]
    by_cases hlt : acc.2 < similarity_ratio ourName c
    · rw [if_pos hlt]
      have hall : ∀ x ∈ processed, are_names_compatible ourName x = true →
          similarity_ratio ourName x < similarity_ratio ourName c := by
        intro x hx hcx
        rcases hacc : acc.1 with - | b
        · rw [FbmInv, hacc] at h
          exact lt_of_le_of_lt (h.2 x hx hcx) (h.1 ▸ hlt)
        · rw [FbmInv, hacc] at h
          obtain ⟨-, hrb, -, l1, l2, hsplit, hl1, hl2⟩ := h
          rw [hsplit] at hx
          rcases List.mem_append.mp hx with hx1 | hx2
          · exact lt_trans (hl1 x hx1 hcx) hlt
          · rcases List.mem_cons.mp hx2 with rfl | hx3
            · exact hrb ▸ hlt
            · exact lt_of_le_of_lt (hl2 x hx3 hcx) hlt
      have hpos : 0 ≤ acc.2 := by
        rcases hacc : acc.1 with - | b
        · rw [FbmInv, hacc] at h
          rw [h.1]
        · rw [FbmInv, hacc] at h
          exact le_of_lt h.2.2.1
      refine ⟨hc, rfl, lt_of_le_of_lt hpos hlt, processed, [], by simp, hall, by simp⟩
    · rw [if_neg hlt]
      rcases hacc : acc.1 with - | b
      · rw [FbmInv, hacc] at h ⊢
        refine ⟨h.1, ?_⟩
        intro x hx hcx
        rcases List.mem_append.mp hx with hx1 | hx2
        · exact h.2 x hx1 hcx
        · rcases List.mem_cons.mp hx2 with rfl | hx3
          · rw [← h.1]
            exact le_of_not_lt hlt
          · simp at hx3
      · rw [FbmInv, hacc] at h ⊢
        obtain ⟨hcb, hrb, hposb, l1, l2, hsplit, hl1, hl2⟩ := h
        refine ⟨hcb, hrb, hposb, l1, l2 ++ [c], by rw [hsplit]; simp, hl1, ?_⟩
        intro x hx hcx
        rcases List.mem_append.mp hx with hx1 | hx2
        · exact hl2 x hx1 hcx
        · rcases List.mem_cons.mp hx2 with rfl | hx3
          · exact le_of_not_lt hlt
          · simp at hx3
  · rw [if_neg hc]
    rcases hacc : acc.1 with - | b
    · rw [FbmInv, hacc] at h ⊢
      refine ⟨h.1, ?_⟩
      intro x hx hcx
      rcases List.mem_append.mp hx with hx1 | hx2
      · exact h.2 x hx1 hcx
      · rcases List.mem_cons.mp hx2 with rfl | hx3
        · exact absurd hcx hc
        · simp at hx3
    · rw [FbmInv, hacc] at h ⊢
      obtain ⟨hcb, hrb, hposb, l1, l2, hsplit, hl1, hl2⟩ := h
      refine ⟨hcb, hrb, hposb, l1, l2 ++ [c], by rw [hsplit]; simp, hl1, ?_⟩
      intro x hx hcx
      rcases List.mem_append.mp hx with hx1 | hx2
      · exact hl2 x hx1 hcx
      · rcases List.mem_cons.mp hx2 with rfl | hx3
        · exact absurd hcx hc
        · simp at hx3

theorem fbm_foldl_inv (ourName : String) :
    ∀ (cands : List String) (processed : List String) (acc : Option String × ℚ),
      FbmInv ourName processed acc →
      FbmInv ourName (processed ++ cands) (cands.foldl (fbmStep ourName) acc) := by
  intro cands
  induction cands with
  | nil => intro processed acc h; simpa using h
  | cons c cs ih =>
    intro processed acc h
    rw [show processed ++ c :: cs = (processed ++ [c]) ++ cs by simp]
    simp only [List.foldl_cons]
    exact ih (processed ++ [c]) _ (fbmStep_inv ourName processed acc c h)

/-- C6: `find_best_api_match` first discards candidates failing
`are_names_compatible`; if it returns a candidate, that candidate is a
compatible element of the list whose similarity is maximal among all
compatible candidates, the returned score is that similarity and reaches the
threshold `0.88 = 22/25`, and every compatible candidate occurring earlier
scores strictly lower (so the first of equal maxima wins); if it returns no
candidate, the result is `(none, 0)` and every compatible candidate scores
below the threshold. -/
theorem c6_find_best_match_spec (ourName : String) (cands : List String) :
    (∀ b r, find_best_api_match ourName cands (mkRat 22 25) = (some b, r) →
      b ∈ cands ∧ are_names_compatible ourName b = true ∧
        r = similarity_ratio ourName b ∧ mkRat 22 25 ≤ r ∧
        (∀ c ∈ cands, are_names_compatible ourName c = true →
          similarity_ratio ourName c ≤ r) ∧
        ∃ l1 l2, cands = l1 ++ b :: l2 ∧
          ∀ c ∈ l1, are_names_compatible ourName c = true →
            similarity_ratio ourName c < r) ∧
    ((find_best_api_match ourName cands (mkRat 22 25)).1 = none →
      find_best_api_match ourName cands (mkRat 22 25) = (none, 0) ∧
      ∀ c ∈ cands, are_names_compatible ourName c = true →
        similarity_ratio ourName c < mkRat 22 25) := by
  have hinv : FbmInv ourName cands
      (cands.foldl (fbmStep ourName) ((none : Option String), (0 : ℚ))) := by
    have h0 : FbmInv ourName [] ((none : Option String), (0 : ℚ)) := by
      refine ⟨rfl, ?_⟩
      intro c hc
      simp at hc
    simpa using fbm_foldl_inv ourName cands [] ((none : Option String), (0 : ℚ)) h0
  constructor
  · intro b r heq
    simp only [find_best_api_match] at heq
    by_cases hth : (mkRat 22 25 : ℚ) ≤
        (cands.foldl (fbmStep ourName) ((none : Option String), (0 : ℚ))).2
    · rw [if_pos hth] at heq
      have hfst : (cands.foldl (fbmStep ourName) ((none : Option String), (0 : ℚ))).1 =
          some b := by rw [heq]
      have hsnd : (cands.foldl (fbmStep ourName) ((none : Option String), (0 : ℚ))).2 = r := by
        rw [heq]
      simp only [FbmInv, hfst] at hinv
      obtain ⟨hcompat, hr, hpos, l1, l2, hsplit, hl1, hl2⟩ := hinv
      subst hsnd
      refine ⟨?_, hcompat, hr, hth, ?_, l1, l2, hsplit, hl1⟩
      · rw [hsplit]
        exact List.mem_append.mpr (Or.inr (List.mem_cons_self _ _))
      · intro c hc hcc
        rw [hsplit] at hc
        rcases List.mem_append.mp hc with hc1 | hc2
        · exact le_of_lt (hl1 c hc1 hcc)
        · rcases List.mem_cons.mp hc2 with rfl | hc3
          · exact le_of_eq hr.symm
          · exact hl2 c hc3 hcc
    · rw [if_neg hth] at heq
      exact absurd heq (by simp)
  · intro h1
    simp only [find_best_api_match] at h1 ⊢
    by_cases hth : (mkRat 22 25 : ℚ) ≤
        (cands.foldl (fbmStep ourName) ((none : Option String), (0 : ℚ))).2
    · rw [if_pos hth] at h1
      simp only [FbmInv, h1] at hinv
      rw [hinv.1] at hth
      exact absurd hth (by decide)
    · rw [if_neg hth] at h1 ⊢
      refine ⟨rfl, ?_⟩
      intro c hc hcc
      have hlt : (cands.foldl (fbmStep ourName) ((none : Option String), (0 : ℚ))).2 <
          mkRat 22 25 := not_le.mp hth
      rcases hfst : (cands.foldl (fbmStep ourName) ((none : Option String), (0 : ℚ))).1
        with - | b
      · simp only [FbmInv, hfst] at hinv
        exact lt_of_le_of_lt (hinv.2 c hc hcc) (by decide)
      · simp only [FbmInv, hfst] at hinv
        obtain ⟨-, hrb, -, l1, l2, hsplit, hl1, hl2⟩ := hinv
        rw [hsplit] at hc
        rcases List.mem_append.mp hc with hc1 | hc2
        · exact lt_trans (hl1 c hc1 hcc) hlt
        · rcases List.mem_cons.mp hc2 with rfl | hc3
          · exact hrb ▸ hlt
          · exact lt_of_le_of_lt (hl2 c hc3 hcc) hlt

/-- Witness for C6: on the candidate list `["PEcAn", "Debian"]` the query
`Debian` is matched to `Debian` with score `1`, which is in the list and at or
above the threshold. -/
theorem c6_find_best_match_spec_witness :
    find_best_api_match "Debian" ["PEcAn", "Debian"] (mkRat 22 25) = (some "Debian", 1) ∧
    "Debian" ∈ ["PEcAn", "Debian"] ∧ mkRat 22 25 ≤ (1 : ℚ) := by
  have h := (c6_find_best_match_spec "Debian" ["PEcAn", "Debian"]).1 "Debian" 1 (by decide)
  exact ⟨by decide, h.1, h.2.2.2.1⟩
